import Mathlib

/-!
Verification development for the solc-go bindings (package `solc`).

The definitions below are a shallow embedding of the Go source:
* the recursive import resolver (`embedded.go`: `newImportResolver`,
  `resolveImports`, `resolveFileImports`, `extractImports`,
  `resolveAbsolutePath`),
* the compiler session (`solc.go`: `baseSolc`, `New`/`newBaseSolc`, `Close`,
  `cleanup`, `License`, `Version`, `CompileWithOptions`),
* version/binary acquisition (`download.go`: `fetchVersionList`,
  `resolveVersion`, `downloadSolcBinary`, `NewWithVersion`, plus the embedded
  binary table of `embedded.go`).

External dependencies of the Go code (the v8 engine, `encoding/json`, the
network and the disk cache) are passed in as explicit parameters, and the
model additionally threads ghost event logs (callback invocations, network
events, engine invocations) so that "X is never invoked" properties become
statements about those logs.
-/

set_option maxHeartbeats 1000000

namespace SolcGo

/-! ## Character classes of the Go regexp

`extractImports` uses the Go regexp
`import\s+(?:(?:\{[^}]*\}|\*\s+as\s+\w+|\w+)\s+from\s+)?["']([^"']+)["']`
with `FindAllStringSubmatch` (leftmost-first, non-overlapping matches).
We implement the matcher for this fixed pattern directly. In Go, `\s` is
`[\t\n\f\r ]` and `\w` is `[0-9A-Za-z_]`.
-/

def isGoSpace (c : Char) : Bool :=
  c = ' ' || c = '\t' || c = '\n' || c = '\r' || c = '\x0c'

def isGoWordChar (c : Char) : Bool :=
  (c ≥ 'a' && c ≤ 'z') || (c ≥ 'A' && c ≤ 'Z') || (c ≥ '0' && c ≤ '9') || c = '_'

def isQuoteChar (c : Char) : Bool :=
  c = '"' || c = '\x27'

/-- Match a literal string prefix, returning the remainder. -/
def matchLit : List Char → List Char → Option (List Char)
  | [], s => some s
  | _ :: _, [] => none
  | l :: ls, c :: cs => if c = l then matchLit ls cs else none

/-- Match `\s+` (greedy; maximal munch is equivalent here because every
continuation after a `\s+` in the pattern starts with a non-space char). -/
def matchSpaces1 : List Char → Option (List Char)
  | [] => none
  | c :: cs => if isGoSpace c then some (cs.dropWhile isGoSpace) else none

/-- Match `\w+` (greedy; every continuation after `\w+` in the pattern starts
with a non-word char, so maximal munch is equivalent). -/
def matchWord1 : List Char → Option (List Char)
  | [] => none
  | c :: cs => if isGoWordChar c then some (cs.dropWhile isGoWordChar) else none

/-- Match `\s+from\s+`, the mandatory part after the import clause. -/
def matchFromPart (s : List Char) : Option (List Char) := do
  let s1 ← matchSpaces1 s
  let s2 ← matchLit "from".toList s1
  matchSpaces1 s2

/-- Match the clause alternation `\{[^}]*\}|\*\s+as\s+\w+|\w+` followed by
`\s+from\s+`. The three alternatives are distinguished by their first
character, so no backtracking across alternatives is possible. -/
def matchClauseFrom : List Char → Option (List Char)
  | [] => none
  | c :: cs =>
    if c = '\x7b' then
      -- \{[^}]*\} : [^}]* cannot cross a closing brace, so it is forced
      match cs.dropWhile (fun d => d ≠ '\x7d') with
      | [] => none
      | _ :: rest => matchFromPart rest
    else if c = '*' then do
      let s1 ← matchSpaces1 cs
      let s2 ← matchLit "as".toList s1
      let s3 ← matchSpaces1 s2
      let s4 ←
        match matchWord1 s3 with
        | none => none
        | some r => some r
      matchFromPart s4
    else
      match matchWord1 (c :: cs) with
      | none => none
      | some s1 => matchFromPart s1

/-- Match `["']([^"']+)["']`, returning the captured group and the remainder.
`[^"']+` cannot cross a quote, so it is forced. -/
def matchQuoted : List Char → Option (String × List Char)
  | [] => none
  | c :: cs =>
    if isQuoteChar c then
      let cap := cs.takeWhile (fun d => !isQuoteChar d)
      match cs.dropWhile (fun d => !isQuoteChar d) with
      | [] => none
      | _ :: rest => if cap.isEmpty then none else some (String.mk cap, rest)
    else none

/-- Try to match the whole import pattern with the match starting exactly at
the head of `s`. The optional clause group is greedy: the matcher first tries
the clause with its `from` part and the quoted capture after it; if that
continuation fails, the group backtracks to matching empty. -/
def matchImportAt (s : List Char) : Option (String × List Char) := do
  let s1 ← matchLit "import".toList s
  let s2 ← matchSpaces1 s1
  match matchClauseFrom s2 with
  | some s3 =>
    match matchQuoted s3 with
    | some res => some res
    | none => matchQuoted s2
  | none => matchQuoted s2

/-- Leftmost-first non-overlapping scan, as Go's `FindAllStringSubmatch`.
The fuel argument only serves the termination checker: every successful
match consumes at least one character, so `length + 1` fuel is never
exhausted before the input is. -/
def scanImports : Nat → List Char → List String
  | 0, _ => []
  | _ + 1, [] => []
  | fuel + 1, c :: cs =>
    match matchImportAt (c :: cs) with
    | some (cap, rest) => cap :: scanImports fuel rest
    | none => scanImports fuel cs

/-- Model of `importResolver.extractImports` (`embedded.go`): collect the
capture group of every match of the import regexp, in source order. The
regexp is a fixed valid pattern, so the Go compile-error branch is dead. -/
def extractImports (sourceCode : String) : List String :=
  scanImports (sourceCode.toList.length + 1) sourceCode.toList

/-! ## Path arithmetic

`resolveAbsolutePath` uses Go's `path/filepath` with `/` as separator
(`filepath.Dir`, `filepath.Join`, `filepath.Clean`).
-/

/-- Whether a string starts with the given character (kernel-computable
stand-in for `strings.HasPrefix` with a one-character prefix). -/
def startsWithChar (c : Char) (s : String) : Bool :=
  match s.toList with
  | [] => false
  | d :: _ => d = c

/-- Split a character list on a separator character, as `strings.Split`. -/
def splitOnChar (sep : Char) : List Char → List Char → List String
  | [], acc => [String.mk acc.reverse]
  | c :: cs, acc =>
    if c = sep then String.mk acc.reverse :: splitOnChar sep cs []
    else splitOnChar sep cs (c :: acc)

/-- Join path components with slashes. -/
def joinComponents : List String → String
  | [] => ""
  | [c] => c
  | c :: rest => c ++ "/" ++ joinComponents rest

/-- One pass of `filepath.Clean`'s element processing: `acc` holds the kept
components in reverse. -/
def cleanLoop (rooted : Bool) : List String → List String → List String
  | [], acc => acc.reverse
  | c :: rest, acc =>
    if c = "" || c = "." then cleanLoop rooted rest acc
    else if c = ".." then
      match acc with
      | a :: acc2 =>
        if a = ".." then cleanLoop rooted rest (".." :: a :: acc2)
        else cleanLoop rooted rest acc2
      | [] => if rooted then cleanLoop rooted rest [] else cleanLoop rooted rest [".."]
    else cleanLoop rooted rest (c :: acc)

/-- Model of `filepath.Clean` for slash-separated paths. -/
def cleanPath (path : String) : String :=
  if path = "" then "."
  else
    let rooted := startsWithChar '/' path
    let comps := cleanLoop rooted (splitOnChar '/' path.toList []) []
    let joined := joinComponents comps
    if rooted then "/" ++ joined
    else if joined = "" then "." else joined

/-- Model of `filepath.Dir`: everything up to and including the final slash,
cleaned; `.` when there is no slash. -/
def dirPath (path : String) : String :=
  let pre := (path.toList.reverse.dropWhile (fun c => c ≠ '/')).reverse
  cleanPath (String.mk pre)

/-- Model of `filepath.Join` for two elements: empty elements are dropped and
the result is cleaned. -/
def joinPath (a b : String) : String :=
  if a = "" then (if b = "" then "" else cleanPath b)
  else if b = "" then cleanPath a
  else cleanPath (a ++ "/" ++ b)

/-- Model of `importResolver.resolveAbsolutePath` (`embedded.go`): an import
path that does not start with `.` is used verbatim; otherwise it is resolved
against the directory of the current file and cleaned. -/
def resolveAbsolutePath (importPath currentFile : String) : String :=
  if !(startsWithChar '.' importPath) then importPath
  else
    let currentDir := dirPath currentFile
    let resolvedPath := joinPath currentDir importPath
    cleanPath resolvedPath

/-! ## Data model

The Go struct definitions for the JSON schema types (`Input`, `SourceIn`,
`Settings`, `Output`, ...) live in a repository file that is not part of the
provided sources; only their uses appear (`solc.go`, the tests). They are
modelled from the spec, section 6. Go maps are modelled as association
lists looked up by first match.
-/

/-- Modelled from the spec: a source entry `{content: string}` of
`CompileInput.sources`. -/
structure SourceIn where
  content : String
deriving DecidableEq, Repr

/-- Modelled from the spec: optimizer settings `{enabled: bool, runs: int}`. -/
structure Optimizer where
  enabled : Bool
  runs : Int
deriving DecidableEq, Repr

/-- Modelled from the spec: compile settings (optimizer flags, EVM/target
version, output-selection matrix). -/
structure Settings where
  optimizer : Optimizer
  evmVersion : String
  outputSelection : List (String × List (String × List String))
deriving DecidableEq, Repr

/-- Modelled from the spec: the compile input document
`{language, sources, settings}`. The `sources` map is an association list. -/
structure Input where
  language : String
  sources : List (String × SourceIn)
  settings : Settings
deriving DecidableEq, Repr

/-- Modelled from the spec: one compiler diagnostic. -/
structure OutputError where
  errType : String
  severity : String
  message : String
  formattedMessage : String
deriving DecidableEq, Repr

/-- Modelled from the spec: the compile output document; the contract payload
is treated as opaque text, nothing in the session logic inspects it. -/
structure Output where
  errors : List OutputError
  contracts : List (String × List (String × String))
deriving DecidableEq, Repr

/-- First-match lookup in an association list, as a Go map read. -/
def lookupSrc : List (String × SourceIn) → String → Option SourceIn
  | [], _ => none
  | (k, v) :: rest, key => if k = key then some v else lookupSrc rest key

/-! ## Import resolver

Model of `importResolver` (`embedded.go`). The Go struct carries the
callback, a visited map `resolvedSources`, a context stack and
`maxDepth = 50`. The context stack is written but never read
(`resolveAbsolutePath` takes the current file as a parameter), so it is not
modelled. The state additionally carries `callLog`, a ghost list of the
paths passed to the import callback, in call order.

The Go recursion counts `depth` upward and fails on `depth > maxDepth`;
the model counts the equivalent `gas = maxDepth + 1 - depth` downward, so
`gas = 0` is exactly `depth > maxDepth` and the recursion is structural.
Errors are modelled as `Option String` alongside the final state, matching
Go's in-place mutation of the resolver state and the input.
-/

/-- Result of an import callback (`ImportResult` in `solc.go`): exactly one
of `contents`/`error` is meaningful. -/
structure ImportResult where
  contents : String := ""
  error : String := ""
deriving DecidableEq, Repr

/-- Import callback type (`ImportCallback` in `solc.go`). -/
def ImportCallback : Type := String → ImportResult

/-- Resolver state: the visited set `resolvedSources` plus the ghost call
log. -/
structure RState where
  resolvedSources : List String
  callLog : List String
deriving DecidableEq, Repr

/-- Model of `newImportResolver`: empty visited set (the callback is a
function parameter below, `maxDepth` is the constant `maxImportDepth`). -/
def newImportResolver : RState :=
  { resolvedSources := [], callLog := [] }

/-- The fixed `maxDepth` set by `newImportResolver`. -/
def maxImportDepth : Nat := 50

/-- The error message produced when an import callback fails. -/
def cbFailMsg (resolvedPath err : String) : String :=
  "import resolution failed for " ++ resolvedPath ++ ": " ++ err

/-- The loop body of `resolveFileImports` over the extracted import paths.
`step` is the recursive call at Go depth `depth + 1`. For each import path:
resolve it to a logical path; if it is already a key of `sources`, recurse
into it; otherwise invoke the callback (logged), abort on a callback error,
else insert the new source and recurse into it. -/
def resolveImportsLoop (cb : ImportCallback)
    (step : RState → Input → String → RState × Input × Option String)
    (fileName : String) :
    List String → RState → Input → RState × Input × Option String
  | [], st, input => (st, input, none)
  | importPath :: rest, st, input =>
    let resolvedPath := resolveAbsolutePath importPath fileName
    match lookupSrc input.sources resolvedPath with
    | some _ =>
      -- Skip if already in sources; still recursively resolve that file
      match step st input resolvedPath with
      | (st2, input2, some e) => (st2, input2, some e)
      | (st2, input2, none) => resolveImportsLoop cb step fileName rest st2 input2
    | none =>
      let result := cb resolvedPath
      let st1 := { st with callLog := st.callLog ++ [resolvedPath] }
      if result.error ≠ "" then
        (st1, input, some (cbFailMsg resolvedPath result.error))
      else
        let input1 := { input with
          sources := input.sources ++ [(resolvedPath, { content := result.contents })] }
        match step st1 input1 resolvedPath with
        | (st2, input2, some e) => (st2, input2, some e)
        | (st2, input2, none) => resolveImportsLoop cb step fileName rest st2 input2

/-- Model of `importResolver.resolveFileImports`. Checks, in source order:
the depth bound (`gas = 0`), the visited set, presence of the file in
`sources`; then marks the file visited and resolves each extracted import.
The Go error branch of `extractImports` is dead (the pattern is a fixed
valid regexp). -/
def resolveFileImports (cb : ImportCallback) :
    Nat → RState → Input → String → RState × Input × Option String
  | 0, st, input, fileName =>
    (st, input, some ("maximum import depth exceeded for file: " ++ fileName))
  | gas + 1, st, input, fileName =>
    if fileName ∈ st.resolvedSources then (st, input, none)
    else
      match lookupSrc input.sources fileName with
      | none => (st, input, some ("source file not found: " ++ fileName))
      | some source =>
        let st1 := { st with resolvedSources := fileName :: st.resolvedSources }
        let imports := extractImports source.content
        resolveImportsLoop cb (resolveFileImports cb gas) fileName imports st1 input

/-- The loop of `resolveImports` over the initially present file names.
Go iterates the `sources` map in unspecified order; the model iterates the
initial keys in list order (entries added during the loop are already
visited, so the choice is immaterial for the verified properties). -/
def resolveAllLoop (cb : ImportCallback) :
    List String → RState → Input → RState × Input × Option String
  | [], st, input => (st, input, none)
  | f :: rest, st, input =>
    match resolveFileImports cb (maxImportDepth + 1) st input f with
    | (st2, input2, some e) => (st2, input2, some e)
    | (st2, input2, none) => resolveAllLoop cb rest st2 input2

/-- Model of `importResolver.resolveImports`, exposing the final resolver
state (Go mutates the resolver and the input in place). -/
def resolveImportsRun (cb : ImportCallback) (input : Input) :
    RState × Input × Option String :=
  resolveAllLoop cb (input.sources.map Prod.fst) newImportResolver input

/-- `resolveImports` as the Go function signature: the augmented input on
success, the error otherwise. -/
def resolveImports (cb : ImportCallback) (input : Input) : Except String Input :=
  match resolveImportsRun cb input with
  | (_, input2, none) => .ok input2
  | (_, _, some e) => .error e

/-! ## Derived import graph

`contentAt` is the content the resolver associates with a logical path:
the initial `sources` entry when present, else what the callback returns.
`succPaths` are the resolved logical paths a file references;
`ReachablePath` is the transitive closure from the initially present keys.
-/

/-- The content a path resolves to, relative to the initial input. -/
def contentAt (cb : ImportCallback) (input0 : Input) (p : String) : String :=
  match lookupSrc input0.sources p with
  | some s => s.content
  | none => (cb p).contents

/-- The resolved logical paths referenced by a file with the given content. -/
def succPaths (content fileName : String) : List String :=
  (extractImports content).map (fun ip => resolveAbsolutePath ip fileName)

/-- Transitively referenced resolved paths of an input under a callback. -/
inductive ReachablePath (cb : ImportCallback) (input0 : Input) : String → Prop
  | root (p : String) (h : lookupSrc input0.sources p ≠ none) :
      ReachablePath cb input0 p
  | step (p q : String) (hp : ReachablePath cb input0 p)
      (hq : q ∈ succPaths (contentAt cb input0 p) p) : ReachablePath cb input0 q

/-! ## Compiler session

Model of `baseSolc` (`solc.go`). The v8 isolate/context pair is reduced to
presence flags, the bound entry points to presence flags, and the engine and
`encoding/json` to explicit parameters (`EngineDeps`). `CompileWithOptions`
additionally returns the number of engine `compile` invocations made during
the call (a ghost counter around `compileFunc.Call`).
-/

/-- Compile options (`CompileOptions` in `solc.go`): an optional import
callback. -/
structure CompileOptions where
  importCallback : Option ImportCallback

/-- Session state: which resources are live (`isolate`, `ctx`), which entry
points were bound (`version`, `license`), and the closed flag. -/
structure SessionState where
  hasIsolate : Bool
  hasCtx : Bool
  hasVersionFn : Bool
  hasLicenseFn : Bool
  closed : Bool
deriving DecidableEq, Repr

/-- External dependencies of `CompileWithOptions`: JSON marshalling
(total on this data model — the Go error branches are dead for these types),
output unmarshalling (`none` = decode error), availability of the engine's
`compile` global as a callable, v8 value creation, and the engine call
itself (`none` = call error). -/
structure EngineDeps where
  marshalInput : Input → String
  unmarshalOutput : String → Option Output
  compileAvailable : Bool
  newValueOk : String → Bool
  engineCompile : String → Option String

/-- Model of `baseSolc.cleanup`: release the context and the isolate. -/
def cleanup (s : SessionState) : SessionState :=
  { s with hasCtx := false, hasIsolate := false }

/-- Model of `baseSolc.Close`: under the session lock, return `nil` at once
when already closed, otherwise release resources and set the closed flag. -/
def Close (s : SessionState) : SessionState × Option String :=
  if s.closed then (s, none)
  else ({ cleanup s with closed := true }, none)

/-- Model of `baseSolc.License`: empty string when no license entry point was
bound, when the session is closed, or when the engine call fails
(`licenseCall` is the engine's answer, `none` = call error). -/
def License (licenseCall : Option String) (s : SessionState) : String :=
  if !s.hasLicenseFn then ""
  else if s.closed then ""
  else
    match licenseCall with
    | none => ""
    | some v => v

/-- Model of `baseSolc.Version`, same pattern as `License`. -/
def Version (versionCall : Option String) (s : SessionState) : String :=
  if !s.hasVersionFn then ""
  else if s.closed then ""
  else
    match versionCall with
    | none => ""
    | some v => v

/-- Model of `baseSolc.CompileWithOptions`. Mirrors the source order:
nil-input check, marshal, closed check (under the lock), optional import
resolution (wrapping resolver errors), re-marshal, engine lookup + call,
unmarshal. The second component counts engine `compile` invocations. -/
def CompileWithOptions (deps : EngineDeps) (s : SessionState)
    (input : Option Input) (options : Option CompileOptions) :
    Except String Output × Nat :=
  match input with
  | none => (.error "input cannot be nil", 0)
  | some input0 =>
    let _inputJSON := deps.marshalInput input0
    if s.closed then (.error "compiler has been closed", 0)
    else
      let resolved : Except String Input :=
        match options with
        | some opts =>
          match opts.importCallback with
          | some cb =>
            match resolveImports cb input0 with
            | .error e => .error ("import resolution failed: " ++ e)
            | .ok inp => .ok inp
          | none => .ok input0
        | none => .ok input0
      match resolved with
      | .error e => (.error e, 0)
      | .ok input1 =>
        let inputJSON := deps.marshalInput input1
        if !deps.compileAvailable then (.error "compile function not available", 0)
        else if !deps.newValueOk inputJSON then (.error "failed to create input value", 0)
        else
          match deps.engineCompile inputJSON with
          | none => (.error "compilation failed", 1)
          | some outStr =>
            match deps.unmarshalOutput outStr with
            | none => (.error "failed to unmarshal output", 1)
            | some out => (.ok out, 1)

/-! ## Session construction

Model of `New`/`newBaseSolc` (`solc.go`). Creating the isolate and the
context is recorded as ghost events; running `soljson.js` and binding the
entry points is abstracted by `initError` (`none` = success) and
`licenseBound` (whether the artifact exports a license entry point). -/

/-- Ghost events of session construction. -/
inductive EngEvent
  | isolateCreated
  | ctxCreated
deriving DecidableEq, Repr

/-- Model of `newBaseSolc`: reject an empty artifact before any engine
resource is created; otherwise create the isolate and context, run `init`,
and clean up on init failure. -/
def newBaseSolcRun (initError : Option String) (licenseBound : Bool)
    (soljsonjs : String) : Except String SessionState × List EngEvent :=
  if soljsonjs = "" then (.error "soljsonjs cannot be empty", [])
  else
    let evs := [EngEvent.isolateCreated, EngEvent.ctxCreated]
    match initError with
    | some e => (.error ("failed to initialize compiler: " ++ e), evs)
    | none =>
      (.ok { hasIsolate := true, hasCtx := true, hasVersionFn := true,
             hasLicenseFn := licenseBound, closed := false }, evs)

/-- Model of `New`, a thin wrapper over `newBaseSolc`. -/
def NewRun (initError : Option String) (licenseBound : Bool)
    (soljsonjs : String) : Except String SessionState × List EngEvent :=
  newBaseSolcRun initError licenseBound soljsonjs

/-! ## Version/binary acquisition

Model of the embedded binary table (`embedded.go`) and of
`fetchVersionList` / `resolveVersion` / `downloadSolcBinary` /
`NewWithVersion` (the cached variant of `download.go`). Network and disk are
parameters (`DownloadDeps`); every remote or cache access is recorded as a
ghost event in call order. The result is the artifact content handed to
`New`. -/

/-- Stand-in for the `go:embed` blob `soljson-v0.8.30+commit.73712a01.js`. -/
def solc0830Binary : String := "soljson-v0.8.30+commit.73712a01.js: embedded blob"

/-- Stand-in for the `go:embed` blob `soljson-v0.8.21+commit.d9974bed.js`. -/
def solc0821Binary : String := "soljson-v0.8.21+commit.d9974bed.js: embedded blob"

/-- The pre-bundled table `embeddedVersions`. -/
def embeddedVersions : List (String × String) :=
  [("0.8.30", solc0830Binary), ("0.8.21", solc0821Binary)]

/-- First-match lookup in a string association list. -/
def lookupStr : List (String × String) → String → Option String
  | [], _ => none
  | (k, v) :: rest, key => if k = key then some v else lookupStr rest key

/-- Model of `getEmbeddedBinary`. -/
def getEmbeddedBinary (version : String) : Option String :=
  lookupStr embeddedVersions version

/-- The remote version catalog (`VersionList` with its `Build` entries). -/
structure Build where
  path : String
  version : String
  build : String
  longVersion : String
  keccak256 : String
  sha256 : String
deriving DecidableEq, Repr

/-- The `list.json` document: builds plus the `releases` map. -/
structure VersionList where
  builds : List Build
  releases : List (String × String)
deriving DecidableEq, Repr

/-- Ghost events of artifact acquisition. -/
inductive FetchEvent
  | catalogFetch
  | cacheRead (version : String)
  | binaryDownload (filename : String)
  | cacheWrite (version : String)
deriving DecidableEq, Repr

/-- External dependencies of acquisition: the outcome of `GET list.json`
(transport/HTTP/parse errors folded into `Except`), the outcome of the
artifact download per filename, the cache read per version (`none` = the
`os.ReadFile` failed), and whether the cache write succeeds. -/
structure DownloadDeps where
  catalogResult : Except String VersionList
  downloadResult : String → Except String String
  cacheContent : String → Option String
  cacheWriteOk : String → Bool

/-- Model of `fetchVersionList`: one catalog fetch. -/
def fetchVersionListRun (deps : DownloadDeps) :
    Except String VersionList × List FetchEvent :=
  (deps.catalogResult, [FetchEvent.catalogFetch])

/-- Model of `resolveVersion`: fetch the catalog, then look the version up in
`releases`. -/
def resolveVersionRun (deps : DownloadDeps) (version : String) :
    Except String String × List FetchEvent :=
  match fetchVersionListRun deps with
  | (.error e, evs) => (.error e, evs)
  | (.ok versionList, evs) =>
    match lookupStr versionList.releases version with
    | none => (.error ("version " ++ version ++ " not found"), evs)
    | some filename => (.ok filename, evs)

/-- Model of the cached `downloadSolcBinary`: consult the on-disk cache
first; on a miss, download and best-effort persist (a failed write is only
logged). -/
def downloadSolcBinaryRun (deps : DownloadDeps) (version filename : String) :
    Except String String × List FetchEvent :=
  match deps.cacheContent version with
  | some content => (.ok content, [FetchEvent.cacheRead version])
  | none =>
    match deps.downloadResult filename with
    | .error e =>
      (.error e, [FetchEvent.cacheRead version, FetchEvent.binaryDownload filename])
    | .ok content =>
      (.ok content,
        [FetchEvent.cacheRead version, FetchEvent.binaryDownload filename,
         FetchEvent.cacheWrite version])

/-- Model of `NewWithVersion` (cached variant): embedded table first and
return immediately on a hit; otherwise resolve the version against the
remote catalog, then obtain the binary (cache, then download). The returned
string is the artifact content handed to `New`. -/
def NewWithVersionRun (deps : DownloadDeps) (version : String) :
    Except String String × List FetchEvent :=
  match getEmbeddedBinary version with
  | some binaryContent => (.ok binaryContent, [])
  | none =>
    match resolveVersionRun deps version with
    | (.error e, evs) =>
      (.error ("failed to resolve version " ++ version ++ ": " ++ e), evs)
    | (.ok filename, evs) =>
      match downloadSolcBinaryRun deps version filename with
      | (.error e, evs2) =>
        (.error ("failed to download solc binary for version " ++ version ++ ": " ++ e),
          evs ++ evs2)
      | (.ok content, evs2) => (.ok content, evs ++ evs2)

/-! ## Association-list lemmas -/

theorem lookupSrc_append (xs ys : List (String × SourceIn)) (k : String) :
    lookupSrc (xs ++ ys) k =
      match lookupSrc xs k with
      | some v => some v
      | none => lookupSrc ys k := by
  induction xs with
  | nil => simp [lookupSrc]
  | cons hd tl ih =>
    obtain ⟨k0, v0⟩ := hd
    by_cases hk : k0 = k
    · simp [lookupSrc, hk]
    · simp [lookupSrc, hk, ih]

theorem lookupSrc_append_of_some (xs ys : List (String × SourceIn)) (k : String)
    (v : SourceIn) (h : lookupSrc xs k = some v) :
    lookupSrc (xs ++ ys) k = some v := by
  rw [lookupSrc_append, h]

theorem lookupSrc_singleton (k key : String) (v : SourceIn) :
    lookupSrc [(k, v)] key = if k = key then some v else none := by
  simp [lookupSrc]

theorem lookupSrc_ne_none_iff (xs : List (String × SourceIn)) (k : String) :
    lookupSrc xs k ≠ none ↔ k ∈ xs.map Prod.fst := by
  induction xs with
  | nil => simp [lookupSrc]
  | cons hd tl ih =>
    obtain ⟨k0, v0⟩ := hd
    by_cases hk : k0 = k
    · simp [lookupSrc, hk]
    · simp [lookupSrc, hk, ih, Ne.symm hk]

/-! ## Run postcondition: monotonicity of sources, visited set and call log

`RunPost st input st2 input2` says: every `sources` entry present before a
resolver step is still present, with the same value, afterwards; the visited
set only grows; and the call log grows by paths that were not keys of
`sources` at the start of the step. -/

def RunPost (st : RState) (input : Input) (st2 : RState) (input2 : Input) : Prop :=
  (∀ k v, lookupSrc input.sources k = some v → lookupSrc input2.sources k = some v) ∧
  (∀ x, x ∈ st.resolvedSources → x ∈ st2.resolvedSources) ∧
  (∃ ext, st2.callLog = st.callLog ++ ext ∧
    ∀ p, p ∈ ext → lookupSrc input.sources p = none)

theorem runPost_rfl (st : RState) (input : Input) : RunPost st input st input :=
  ⟨fun _ _ h => h, fun _ h => h, ⟨[], by simp⟩⟩

theorem runPost_trans {st input st1 input1 st2 input2}
    (h1 : RunPost st input st1 input1) (h2 : RunPost st1 input1 st2 input2) :
    RunPost st input st2 input2 := by
  obtain ⟨m1, v1, ext1, e1, p1⟩ := h1
  obtain ⟨m2, v2, ext2, e2, p2⟩ := h2
  refine ⟨fun k v h => m2 k v (m1 k v h), fun x h => v2 x (v1 x h),
    ⟨ext1 ++ ext2, by rw [e2, e1, List.append_assoc], ?_⟩⟩
  intro p hp
  rcases List.mem_append.mp hp with h | h
  · exact p1 p h
  · match hcur : lookupSrc input.sources p with
    | none => rfl
    | some v => exact absurd (m1 p v hcur) (by simp [p2 p h])

theorem runPost_keys {st input st2 input2} (h : RunPost st input st2 input2)
    (k : String) (hk : lookupSrc input.sources k ≠ none) :
    lookupSrc input2.sources k ≠ none := by
  match hcur : lookupSrc input.sources k with
  | none => exact absurd hcur hk
  | some v => simp [h.1 k v hcur]

theorem runPost_insert (st : RState) (input : Input) (resolvedPath c : String)
    (hl : lookupSrc input.sources resolvedPath = none) :
    RunPost st input
      { st with callLog := st.callLog ++ [resolvedPath] }
      { input with sources := input.sources ++ [(resolvedPath, { content := c })] } :=
  ⟨fun k v h => lookupSrc_append_of_some _ _ k v h, fun x h => h,
    ⟨[resolvedPath], rfl, by simpa using hl⟩⟩

/-- Every step of the import loop satisfies `RunPost`, provided the recursive
step does. -/
theorem loopRunPost (cb : ImportCallback)
    (step : RState → Input → String → RState × Input × Option String)
    (hstep : ∀ st input g, RunPost st input (step st input g).1 (step st input g).2.1)
    (fileName : String) :
    ∀ (imports : List String) (st : RState) (input : Input),
      RunPost st input
        (resolveImportsLoop cb step fileName imports st input).1
        (resolveImportsLoop cb step fileName imports st input).2.1 := by
  intro imports
  induction imports with
  | nil => intro st input; exact runPost_rfl st input
  | cons importPath rest ih =>
    intro st input
    show RunPost st input
      (resolveImportsLoop cb step fileName (importPath :: rest) st input).1
      (resolveImportsLoop cb step fileName (importPath :: rest) st input).2.1
    rw [resolveImportsLoop]
    set resolvedPath := resolveAbsolutePath importPath fileName with hrp
    match hl : lookupSrc input.sources resolvedPath with
    | some v =>
      simp only
      match hs : step st input resolvedPath with
      | (st2, input2, some e) =>
        simp only
        have := hstep st input resolvedPath
        rw [hs] at this
        exact this
      | (st2, input2, none) =>
        simp only
        have h1 := hstep st input resolvedPath
        rw [hs] at h1
        exact runPost_trans h1 (ih st2 input2)
    | none =>
      simp only
      by_cases herr : (cb resolvedPath).error ≠ ""
      · simp only [if_pos herr]
        exact ⟨fun k v h => h, fun x h => h, ⟨[resolvedPath], rfl, by simpa using hl⟩⟩
      · simp only [if_neg herr]
        set st1 : RState := { st with callLog := st.callLog ++ [resolvedPath] } with hst1
        set input1 : Input := { input with
          sources := input.sources ++ [(resolvedPath, { content := (cb resolvedPath).contents })] }
          with hinput1
        have hpre : RunPost st input st1 input1 := by
          refine ⟨fun k v h => lookupSrc_append_of_some _ _ k v h, fun x h => h,
            ⟨[resolvedPath], rfl, by simpa using hl⟩⟩
        match hs : step st1 input1 resolvedPath with
        | (st2, input2, some e) =>
          simp only
          have h1 := hstep st1 input1 resolvedPath
          rw [hs] at h1
          exact runPost_trans hpre h1
        | (st2, input2, none) =>
          simp only
          have h1 := hstep st1 input1 resolvedPath
          rw [hs] at h1
          exact runPost_trans hpre (runPost_trans h1 (ih st2 input2))

/-- `resolveFileImports` satisfies `RunPost` at every gas level. -/
theorem fileRunPost (cb : ImportCallback) :
    ∀ (gas : Nat) (st : RState) (input : Input) (f : String),
      RunPost st input
        (resolveFileImports cb gas st input f).1
        (resolveFileImports cb gas st input f).2.1 := by
  intro gas
  induction gas with
  | zero => intro st input f; exact runPost_rfl st input
  | succ gas ih =>
    intro st input f
    rw [resolveFileImports]
    by_cases hv : f ∈ st.resolvedSources
    · simp only [if_pos hv]; exact runPost_rfl st input
    · simp only [if_neg hv]
      match hl : lookupSrc input.sources f with
      | none => exact runPost_rfl st input
      | some source =>
        simp only
        set st1 : RState := { st with resolvedSources := f :: st.resolvedSources } with hst1
        have hpre : RunPost st input st1 input :=
          ⟨fun k v h => h, fun x h => List.mem_cons_of_mem f h, ⟨[], by simp⟩⟩
        exact runPost_trans hpre
          (loopRunPost cb (resolveFileImports cb gas)
            (fun st' input' g => ih st' input' g) f
            (extractImports source.content) st1 input)

/-- The top-level loop over the initial keys satisfies `RunPost`. -/
theorem allLoopRunPost (cb : ImportCallback) :
    ∀ (files : List String) (st : RState) (input : Input),
      RunPost st input
        (resolveAllLoop cb files st input).1
        (resolveAllLoop cb files st input).2.1 := by
  intro files
  induction files with
  | nil => intro st input; exact runPost_rfl st input
  | cons f rest ih =>
    intro st input
    rw [resolveAllLoop]
    match hs : resolveFileImports cb (maxImportDepth + 1) st input f with
    | (st2, input2, some e) =>
      simp only
      have h1 := fileRunPost cb (maxImportDepth + 1) st input f
      rw [hs] at h1
      exact h1
    | (st2, input2, none) =>
      simp only
      have h1 := fileRunPost cb (maxImportDepth + 1) st input f
      rw [hs] at h1
      exact runPost_trans h1 (ih st2 input2)

/-! ## At-most-once callback invocation

`LogInv` is the invariant that makes the visited/sources guard work: the
call log has no duplicates and every logged path is by now a key of
`sources` (it is inserted right after the callback returns contents). A
callback error breaks the second half, but the run aborts immediately, so
the log stays duplicate-free in every outcome. -/

def LogInv (st : RState) (input : Input) : Prop :=
  st.callLog.Nodup ∧ ∀ p, p ∈ st.callLog → lookupSrc input.sources p ≠ none

theorem logInv_extend {st : RState} {input : Input} (resolvedPath : String)
    (hinv : LogInv st input) (hl : lookupSrc input.sources resolvedPath = none) :
    (st.callLog ++ [resolvedPath]).Nodup := by
  have hnotin : resolvedPath ∉ st.callLog := fun hmem => (hinv.2 resolvedPath hmem) hl
  simp [List.nodup_append, hinv.1, hnotin]

theorem loopNodup (cb : ImportCallback)
    (step : RState → Input → String → RState × Input × Option String)
    (hstep : ∀ st input g, LogInv st input →
      (step st input g).1.callLog.Nodup ∧
      ((step st input g).2.2 = none → LogInv (step st input g).1 (step st input g).2.1))
    (fileName : String) :
    ∀ (imports : List String) (st : RState) (input : Input), LogInv st input →
      (resolveImportsLoop cb step fileName imports st input).1.callLog.Nodup ∧
      ((resolveImportsLoop cb step fileName imports st input).2.2 = none →
        LogInv (resolveImportsLoop cb step fileName imports st input).1
          (resolveImportsLoop cb step fileName imports st input).2.1) := by
  intro imports
  induction imports with
  | nil => intro st input hinv; exact ⟨hinv.1, fun _ => hinv⟩
  | cons importPath rest ih =>
    intro st input hinv
    rw [resolveImportsLoop]
    set resolvedPath := resolveAbsolutePath importPath fileName with hrp
    match hl : lookupSrc input.sources resolvedPath with
    | some v =>
      simp only
      match hs : step st input resolvedPath with
      | (st2, input2, some e) =>
        simp only
        have := hstep st input resolvedPath hinv
        rw [hs] at this
        exact ⟨this.1, by simp⟩
      | (st2, input2, none) =>
        simp only
        have h1 := hstep st input resolvedPath hinv
        rw [hs] at h1
        exact ih st2 input2 (h1.2 rfl)
    | none =>
      simp only
      by_cases herr : (cb resolvedPath).error ≠ ""
      · simp only [if_pos herr]
        exact ⟨logInv_extend resolvedPath hinv hl, by simp⟩
      · simp only [if_neg herr]
        set st1 : RState := { st with callLog := st.callLog ++ [resolvedPath] } with hst1
        set input1 : Input := { input with
          sources := input.sources ++ [(resolvedPath, { content := (cb resolvedPath).contents })] }
          with hinput1
        have hinv1 : LogInv st1 input1 := by
          refine ⟨logInv_extend resolvedPath hinv hl, ?_⟩
          intro p hp
          rcases List.mem_append.mp hp with h | h
          · exact runPost_keys
              (runPost_insert st input resolvedPath (cb resolvedPath).contents hl)
              p (hinv.2 p h)
          · have hpeq : p = resolvedPath := by simpa using h
            subst hpeq
            rw [show input1.sources = input.sources ++
              [(resolvedPath, { content := (cb resolvedPath).contents })] from rfl,
              lookupSrc_append, hl]
            simp [lookupSrc]
        match hs : step st1 input1 resolvedPath with
        | (st2, input2, some e) =>
          simp only
          have h1 := hstep st1 input1 resolvedPath hinv1
          rw [hs] at h1
          exact ⟨h1.1, by simp⟩
        | (st2, input2, none) =>
          simp only
          have h1 := hstep st1 input1 resolvedPath hinv1
          rw [hs] at h1
          exact ih st2 input2 (h1.2 rfl)

theorem fileNodup (cb : ImportCallback) :
    ∀ (gas : Nat) (st : RState) (input : Input) (f : String), LogInv st input →
      (resolveFileImports cb gas st input f).1.callLog.Nodup ∧
      ((resolveFileImports cb gas st input f).2.2 = none →
        LogInv (resolveFileImports cb gas st input f).1
          (resolveFileImports cb gas st input f).2.1) := by
  intro gas
  induction gas with
  | zero => intro st input f hinv; exact ⟨hinv.1, by simp [resolveFileImports]⟩
  | succ gas ih =>
    intro st input f hinv
    rw [resolveFileImports]
    by_cases hv : f ∈ st.resolvedSources
    · simp only [if_pos hv]; exact ⟨hinv.1, fun _ => hinv⟩
    · simp only [if_neg hv]
      match hl : lookupSrc input.sources f with
      | none => exact ⟨hinv.1, by simp⟩
      | some source =>
        simp only
        exact loopNodup cb (resolveFileImports cb gas)
          (fun st' input' g hinv' => ih st' input' g hinv') f
          (extractImports source.content)
          { st with resolvedSources := f :: st.resolvedSources } input hinv

theorem allLoopNodup (cb : ImportCallback) :
    ∀ (files : List String) (st : RState) (input : Input), LogInv st input →
      (resolveAllLoop cb files st input).1.callLog.Nodup := by
  intro files
  induction files with
  | nil => intro st input hinv; exact hinv.1
  | cons f rest ih =>
    intro st input hinv
    rw [resolveAllLoop]
    match hs : resolveFileImports cb (maxImportDepth + 1) st input f with
    | (st2, input2, some e) =>
      simp only
      have := fileNodup cb (maxImportDepth + 1) st input f hinv
      rw [hs] at this
      exact this.1
    | (st2, input2, none) =>
      simp only
      have h1 := fileNodup cb (maxImportDepth + 1) st input f hinv
      rw [hs] at h1
      exact ih st2 input2 (h1.2 rfl)

/-! ## Runs under an always-failing callback

When the callback reports an error for every path, the first callback
invocation aborts the whole run: the call log gains at most one entry,
`sources` is never extended, and the reported error names that path and the
callback's message. -/

def AllErrOutcome (cb : ImportCallback) (st : RState) (input : Input)
    (st2 : RState) (input2 : Input) (e : Option String) : Prop :=
  input2 = input ∧
  (st2.callLog = st.callLog ∨
    ∃ p, st2.callLog = st.callLog ++ [p] ∧ e = some (cbFailMsg p (cb p).error))

theorem loopAllErr (cb : ImportCallback)
    (hcb : ∀ q, (cb q).error ≠ "")
    (step : RState → Input → String → RState × Input × Option String)
    (hstep : ∀ st input g,
      AllErrOutcome cb st input (step st input g).1 (step st input g).2.1 (step st input g).2.2)
    (fileName : String) :
    ∀ (imports : List String) (st : RState) (input : Input),
      AllErrOutcome cb st input
        (resolveImportsLoop cb step fileName imports st input).1
        (resolveImportsLoop cb step fileName imports st input).2.1
        (resolveImportsLoop cb step fileName imports st input).2.2 := by
  intro imports
  induction imports with
  | nil => intro st input; exact ⟨rfl, Or.inl rfl⟩
  | cons importPath rest ih =>
    intro st input
    rw [resolveImportsLoop]
    set resolvedPath := resolveAbsolutePath importPath fileName with hrp
    match hl : lookupSrc input.sources resolvedPath with
    | some v =>
      simp only
      match hs : step st input resolvedPath with
      | (st2, input2, some e) =>
        simp only
        have h1 := hstep st input resolvedPath
        rw [hs] at h1
        exact h1
      | (st2, input2, none) =>
        simp only
        have h1 := hstep st input resolvedPath
        rw [hs] at h1
        obtain ⟨hin, hlog⟩ := h1
        have hinE : input2 = input := hin
        rcases hlog with hlog | ⟨p, _, hcontra⟩
        · have hlogE : st2.callLog = st.callLog := hlog
          obtain ⟨hin2, hlog2⟩ := ih st2 input2
          constructor
          · rw [hin2]; exact hinE
          · rw [hlogE] at hlog2
            exact hlog2
        · have hcontraE : (none : Option String) = some (cbFailMsg p (cb p).error) := hcontra
          exact absurd hcontraE (by simp)
    | none =>
      simp only [if_pos (hcb resolvedPath)]
      constructor
      · rfl
      · exact Or.inr ⟨resolvedPath, rfl, rfl⟩

theorem fileAllErr (cb : ImportCallback) (hcb : ∀ q, (cb q).error ≠ "") :
    ∀ (gas : Nat) (st : RState) (input : Input) (f : String),
      AllErrOutcome cb st input
        (resolveFileImports cb gas st input f).1
        (resolveFileImports cb gas st input f).2.1
        (resolveFileImports cb gas st input f).2.2 := by
  intro gas
  induction gas with
  | zero => intro st input f; exact ⟨rfl, Or.inl rfl⟩
  | succ gas ih =>
    intro st input f
    rw [resolveFileImports]
    by_cases hv : f ∈ st.resolvedSources
    · simp only [if_pos hv]; exact ⟨rfl, Or.inl rfl⟩
    · simp only [if_neg hv]
      match hl : lookupSrc input.sources f with
      | none => exact ⟨rfl, Or.inl rfl⟩
      | some source =>
        simp only
        exact loopAllErr cb hcb (resolveFileImports cb gas)
          (fun st' input' g => ih st' input' g) f
          (extractImports source.content)
          { st with resolvedSources := f :: st.resolvedSources } input

theorem allLoopAllErr (cb : ImportCallback) (hcb : ∀ q, (cb q).error ≠ "") :
    ∀ (files : List String) (st : RState) (input : Input),
      AllErrOutcome cb st input
        (resolveAllLoop cb files st input).1
        (resolveAllLoop cb files st input).2.1
        (resolveAllLoop cb files st input).2.2 := by
  intro files
  induction files with
  | nil => intro st input; exact ⟨rfl, Or.inl rfl⟩
  | cons f rest ih =>
    intro st input
    rw [resolveAllLoop]
    match hs : resolveFileImports cb (maxImportDepth + 1) st input f with
    | (st2, input2, some e) =>
      simp only
      have h1 := fileAllErr cb hcb (maxImportDepth + 1) st input f
      rw [hs] at h1
      exact h1
    | (st2, input2, none) =>
      simp only
      have h1 := fileAllErr cb hcb (maxImportDepth + 1) st input f
      rw [hs] at h1
      obtain ⟨hin, hlog⟩ := h1
      have hinE : input2 = input := hin
      rcases hlog with hlog | ⟨p, _, hcontra⟩
      · have hlogE : st2.callLog = st.callLog := hlog
        obtain ⟨hin2, hlog2⟩ := ih st2 input2
        constructor
        · rw [hin2]; exact hinE
        · rw [hlogE] at hlog2
          exact hlog2
      · have hcontraE : (none : Option String) = some (cbFailMsg p (cb p).error) := hcontra
        exact absurd hcontraE (by simp)

/-! ## Successful resolution on bounded acyclic import graphs

`Rs` is a finite over-approximation of the reachable paths, closed under
`succPaths`; `rank` is a ranking function that strictly decreases along the
edges (this is how "acyclic and within the depth bound" is cast in a
checkable form: a rank bounded by `maxImportDepth` at the roots witnesses
both acyclicity of the discovered graph and that every chain stays within
the Go depth check). Under a callback that succeeds on non-root paths of
`Rs`, the whole run succeeds and visits a superset of the reachable paths.
-/

theorem keys_of_valMono {a b : List (String × SourceIn)}
    (h : ∀ k v, lookupSrc a k = some v → lookupSrc b k = some v)
    (k : String) (hk : lookupSrc a k ≠ none) : lookupSrc b k ≠ none := by
  match hcur : lookupSrc a k with
  | none => exact absurd hcur hk
  | some v => simp [h k v hcur]

/-- Invariant carried through a successful resolution: the initial keys are
still present, every present entry's content is the content the derived
graph assigns to its path, and every visited path is a key. -/
def SInv (cb : ImportCallback) (input0 : Input) (st : RState) (input : Input) : Prop :=
  (∀ k, lookupSrc input0.sources k ≠ none → lookupSrc input.sources k ≠ none) ∧
  (∀ k s, lookupSrc input.sources k = some s → s.content = contentAt cb input0 k) ∧
  (∀ v, v ∈ st.resolvedSources → lookupSrc input.sources v ≠ none)

/-- Postcondition of a successful resolution step: entries and the visited
set are preserved, the invariant still holds, and every newly visited path
has all its successors visited and present. -/
def SPost (cb : ImportCallback) (input0 : Input)
    (st : RState) (input : Input) (st2 : RState) (input2 : Input) : Prop :=
  (∀ k v, lookupSrc input.sources k = some v → lookupSrc input2.sources k = some v) ∧
  (∀ x, x ∈ st.resolvedSources → x ∈ st2.resolvedSources) ∧
  SInv cb input0 st2 input2 ∧
  (∀ v, v ∈ st2.resolvedSources → v ∉ st.resolvedSources →
    ∀ q, q ∈ succPaths (contentAt cb input0 v) v →
      q ∈ st2.resolvedSources ∧ lookupSrc input2.sources q ≠ none)

theorem sPost_refl (cb : ImportCallback) (input0 : Input) (st : RState)
    (input : Input) (hinv : SInv cb input0 st input) :
    SPost cb input0 st input st input :=
  ⟨fun _ _ h => h, fun _ h => h, hinv, fun _ hv hnv _ _ => absurd hv hnv⟩

theorem sPost_trans {cb : ImportCallback} {input0 : Input}
    {st input st1 input1 st2 input2}
    (h1 : SPost cb input0 st input st1 input1)
    (h2 : SPost cb input0 st1 input1 st2 input2) :
    SPost cb input0 st input st2 input2 := by
  obtain ⟨m1, v1, i1, c1⟩ := h1
  obtain ⟨m2, v2, i2, c2⟩ := h2
  refine ⟨fun k v h => m2 k v (m1 k v h), fun x h => v2 x (v1 x h), i2, ?_⟩
  intro v hv hnv q hq
  by_cases hv1 : v ∈ st1.resolvedSources
  · obtain ⟨hq1, hk1⟩ := c1 v hv1 hnv q hq
    exact ⟨v2 q hq1, keys_of_valMono m2 q hk1⟩
  · exact c2 v hv hv1 q hq

/-- Success statement for `resolveFileImports` at a given gas level. -/
def SFileGoal (cb : ImportCallback) (input0 : Input) (Rs : List String)
    (rank : String → Nat) (gas : Nat) : Prop :=
  ∀ st input f, SInv cb input0 st input → f ∈ Rs →
    lookupSrc input.sources f ≠ none → rank f < gas →
    (resolveFileImports cb gas st input f).2.2 = none ∧
    SPost cb input0 st input
      (resolveFileImports cb gas st input f).1
      (resolveFileImports cb gas st input f).2.1 ∧
    f ∈ (resolveFileImports cb gas st input f).1.resolvedSources

theorem sLoop (cb : ImportCallback) (input0 : Input) (Rs : List String)
    (rank : String → Nat)
    (hclosed : ∀ p, p ∈ Rs → ∀ q, q ∈ succPaths (contentAt cb input0 p) p → q ∈ Rs)
    (hrank : ∀ p, p ∈ Rs → ∀ q, q ∈ succPaths (contentAt cb input0 p) p → rank q < rank p)
    (hcbok : ∀ p, p ∈ Rs → lookupSrc input0.sources p = none → (cb p).error = "")
    (gas : Nat) (hfile : SFileGoal cb input0 Rs rank gas) (f : String) :
    ∀ (imports : List String) (st : RState) (input : Input),
      SInv cb input0 st input → f ∈ Rs →
      (∀ ip, ip ∈ imports →
        resolveAbsolutePath ip f ∈ succPaths (contentAt cb input0 f) f) →
      rank f ≤ gas →
      (resolveImportsLoop cb (resolveFileImports cb gas) f imports st input).2.2 = none ∧
      SPost cb input0 st input
        (resolveImportsLoop cb (resolveFileImports cb gas) f imports st input).1
        (resolveImportsLoop cb (resolveFileImports cb gas) f imports st input).2.1 ∧
      (∀ ip, ip ∈ imports →
        resolveAbsolutePath ip f ∈
          (resolveImportsLoop cb (resolveFileImports cb gas) f imports st input).1.resolvedSources ∧
        lookupSrc
          (resolveImportsLoop cb (resolveFileImports cb gas) f imports st input).2.1.sources
          (resolveAbsolutePath ip f) ≠ none) := by
  intro imports
  induction imports with
  | nil =>
    intro st input hinv hf _ _
    exact ⟨rfl, sPost_refl cb input0 st input hinv, by simp⟩
  | cons ip rest ih =>
    intro st input hinv hf himp hrk
    have hq : resolveAbsolutePath ip f ∈ succPaths (contentAt cb input0 f) f :=
      himp ip (List.mem_cons_self ip rest)
    have hqRs : resolveAbsolutePath ip f ∈ Rs := hclosed f hf _ hq
    have hqrank : rank (resolveAbsolutePath ip f) < gas :=
      lt_of_lt_of_le (hrank f hf _ hq) hrk
    rw [resolveImportsLoop]
    set q := resolveAbsolutePath ip f with hqdef
    match hl : lookupSrc input.sources q with
    | some v =>
      simp only
      have hstep := hfile st input q hinv hqRs (by simp [hl]) hqrank
      obtain ⟨he1, hp1, hv1⟩ := hstep
      match hs : resolveFileImports cb gas st input q with
      | (st2, input2, some e) =>
        rw [hs] at he1
        exact absurd he1 (by simp)
      | (st2, input2, none) =>
        simp only
        rw [hs] at hp1 hv1
        have hrest := ih st2 input2 hp1.2.2.1 hf
          (fun ip2 hip2 => himp ip2 (List.mem_cons_of_mem ip hip2)) hrk
        obtain ⟨he2, hp2, ht2⟩ := hrest
        refine ⟨he2, sPost_trans hp1 hp2, ?_⟩
        intro ip2 hip2
        rcases List.mem_cons.mp hip2 with hip2 | hip2
        · subst hip2
          refine ⟨hp2.2.1 q hv1, ?_⟩
          exact keys_of_valMono hp2.1 q (hp1.2.2.1.2.2 q hv1)
        · exact ht2 ip2 hip2
    | none =>
      simp only
      have hq0 : lookupSrc input0.sources q = none := by
        match h00 : lookupSrc input0.sources q with
        | none => rfl
        | some w => exact absurd (hinv.1 q (by simp [h00])) (by simp [hl])
      have herr : (cb q).error = "" := hcbok q hqRs hq0
      rw [if_neg (by simp [herr])]
      have hpre : SPost cb input0 st input
          { st with callLog := st.callLog ++ [q] }
          { input with sources := input.sources ++ [(q, { content := (cb q).contents })] } := by
        refine ⟨fun k v h => lookupSrc_append_of_some _ _ k v h, fun x h => h, ?_, ?_⟩
        · refine ⟨?_, ?_, ?_⟩
          · intro k hk
            exact keys_of_valMono (fun k v h => lookupSrc_append_of_some _ _ k v h) k
              (hinv.1 k hk)
          · intro k s hks
            rw [lookupSrc_append] at hks
            match hk0 : lookupSrc input.sources k with
            | some w =>
              rw [hk0] at hks
              simp at hks
              rw [← hks]
              exact hinv.2.1 k w hk0
            | none =>
              rw [hk0] at hks
              simp only at hks
              rw [lookupSrc_singleton] at hks
              by_cases hkq : q = k
              · subst hkq
                simp at hks
                rw [← hks]
                show (cb q).contents = contentAt cb input0 q
                rw [contentAt, hq0]
              · simp [hkq] at hks
          · intro v hv
            exact keys_of_valMono (fun k v h => lookupSrc_append_of_some _ _ k v h) v
              (hinv.2.2 v hv)
        · intro v hv hnv _ _
          exact absurd hv hnv
      have hkey1 : lookupSrc
          ({ input with sources := input.sources ++ [(q, { content := (cb q).contents })] } : Input).sources
          q ≠ none := by
        show lookupSrc (input.sources ++ [(q, { content := (cb q).contents })]) q ≠ none
        rw [lookupSrc_append, hl, lookupSrc_singleton]
        simp
      have hstep := hfile { st with callLog := st.callLog ++ [q] }
        { input with sources := input.sources ++ [(q, { content := (cb q).contents })] }
        q hpre.2.2.1 hqRs hkey1 hqrank
      obtain ⟨he1, hp1, hv1⟩ := hstep
      match hs : resolveFileImports cb gas
          { st with callLog := st.callLog ++ [q] }
          { input with sources := input.sources ++ [(q, { content := (cb q).contents })] }
          q with
      | (st2, input2, some e) =>
        rw [hs] at he1
        exact absurd he1 (by simp)
      | (st2, input2, none) =>
        simp only
        rw [hs] at hp1 hv1
        have hrest := ih st2 input2 hp1.2.2.1 hf
          (fun ip2 hip2 => himp ip2 (List.mem_cons_of_mem ip hip2)) hrk
        obtain ⟨he2, hp2, ht2⟩ := hrest
        refine ⟨he2, sPost_trans hpre (sPost_trans hp1 hp2), ?_⟩
        intro ip2 hip2
        rcases List.mem_cons.mp hip2 with hip2 | hip2
        · subst hip2
          refine ⟨hp2.2.1 q hv1, ?_⟩
          exact keys_of_valMono hp2.1 q (hp1.2.2.1.2.2 q hv1)
        · exact ht2 ip2 hip2

theorem sFile (cb : ImportCallback) (input0 : Input) (Rs : List String)
    (rank : String → Nat)
    (hclosed : ∀ p, p ∈ Rs → ∀ q, q ∈ succPaths (contentAt cb input0 p) p → q ∈ Rs)
    (hrank : ∀ p, p ∈ Rs → ∀ q, q ∈ succPaths (contentAt cb input0 p) p → rank q < rank p)
    (hcbok : ∀ p, p ∈ Rs → lookupSrc input0.sources p = none → (cb p).error = "") :
    ∀ gas, SFileGoal cb input0 Rs rank gas := by
  intro gas
  induction gas with
  | zero => intro st input f _ _ _ hrk; exact absurd hrk (by simp)
  | succ gas ih =>
    intro st input f hinv hf hkey hrk
    rw [resolveFileImports]
    by_cases hv : f ∈ st.resolvedSources
    · simp only [if_pos hv]
      exact ⟨by trivial, sPost_refl cb input0 st input hinv, hv⟩
    · simp only [if_neg hv]
      match hl : lookupSrc input.sources f with
      | none => exact absurd hl hkey
      | some source =>
        simp only
        have hcontent : source.content = contentAt cb input0 f := hinv.2.1 f source hl
        have hinv1 : SInv cb input0
            { st with resolvedSources := f :: st.resolvedSources } input := by
          refine ⟨hinv.1, hinv.2.1, ?_⟩
          intro v hvm
          rcases List.mem_cons.mp hvm with hvm | hvm
          · subst hvm; simp [hl]
          · exact hinv.2.2 v hvm
        have himp : ∀ ip, ip ∈ extractImports source.content →
            resolveAbsolutePath ip f ∈ succPaths (contentAt cb input0 f) f := by
          intro ip hip
          rw [← hcontent]
          exact List.mem_map_of_mem _ hip
        have hloop := sLoop cb input0 Rs rank hclosed hrank hcbok gas ih f
          (extractImports source.content)
          { st with resolvedSources := f :: st.resolvedSources } input
          hinv1 hf himp (Nat.lt_succ_iff.mp hrk)
        obtain ⟨he, hp, ht⟩ := hloop
        refine ⟨he, ?_, hp.2.1 f (List.mem_cons_self f st.resolvedSources)⟩
        refine ⟨hp.1, fun x hx => hp.2.1 x (List.mem_cons_of_mem f hx), hp.2.2.1, ?_⟩
        intro v hvm hnv q hq
        by_cases hvf : v = f
        · subst hvf
          rw [← hcontent] at hq
          obtain ⟨ip, hip, hipq⟩ := List.mem_map.mp hq
          rw [← hipq]
          exact ht ip hip
        · have hv1 : v ∉ ({ st with resolvedSources := f :: st.resolvedSources } : RState).resolvedSources := by
            show v ∉ f :: st.resolvedSources
            simp [hvf, hnv]
          exact hp.2.2.2 v hvm hv1 q hq

theorem sTop (cb : ImportCallback) (input0 : Input) (Rs : List String)
    (rank : String → Nat)
    (hclosed : ∀ p, p ∈ Rs → ∀ q, q ∈ succPaths (contentAt cb input0 p) p → q ∈ Rs)
    (hrank : ∀ p, p ∈ Rs → ∀ q, q ∈ succPaths (contentAt cb input0 p) p → rank q < rank p)
    (hcbok : ∀ p, p ∈ Rs → lookupSrc input0.sources p = none → (cb p).error = "") :
    ∀ (files : List String) (st : RState) (input : Input),
      SInv cb input0 st input →
      (∀ f, f ∈ files → f ∈ Rs ∧ rank f ≤ maxImportDepth ∧
        lookupSrc input0.sources f ≠ none) →
      (resolveAllLoop cb files st input).2.2 = none ∧
      SPost cb input0 st input
        (resolveAllLoop cb files st input).1
        (resolveAllLoop cb files st input).2.1 ∧
      (∀ f, f ∈ files → f ∈ (resolveAllLoop cb files st input).1.resolvedSources) := by
  intro files
  induction files with
  | nil =>
    intro st input hinv _
    exact ⟨rfl, sPost_refl cb input0 st input hinv, by simp⟩
  | cons f rest ih =>
    intro st input hinv hfiles
    obtain ⟨hfRs, hfrank, hfkey0⟩ := hfiles f (List.mem_cons_self f rest)
    have hstep := sFile cb input0 Rs rank hclosed hrank hcbok (maxImportDepth + 1)
      st input f hinv hfRs (hinv.1 f hfkey0) (Nat.lt_succ_of_le hfrank)
    obtain ⟨he1, hp1, hv1⟩ := hstep
    rw [resolveAllLoop]
    match hs : resolveFileImports cb (maxImportDepth + 1) st input f with
    | (st2, input2, some e) =>
      rw [hs] at he1
      exact absurd he1 (by simp)
    | (st2, input2, none) =>
      simp only
      rw [hs] at hp1 hv1
      have hrest := ih st2 input2 hp1.2.2.1
        (fun g hg => hfiles g (List.mem_cons_of_mem f hg))
      obtain ⟨he2, hp2, ht2⟩ := hrest
      refine ⟨he2, sPost_trans hp1 hp2, ?_⟩
      intro g hg
      rcases List.mem_cons.mp hg with hg | hg
      · subst hg; exact hp2.2.1 g hv1
      · exact ht2 g hg

/-! ## Deep linear chains and the depth bound

For a linear chain `names 0 → names 1 → ...` (each file importing exactly
the next one), the resolver descends fetching files one by one and fails at
Go depth `maxImportDepth + 1 = 51`: the callback has by then been invoked
for `names 1` through `names 51` — including `names 51`, the file the
depth error names — and for nothing deeper. -/

def chainSources (names contents : Nat → String) (k : Nat) :
    List (String × SourceIn) :=
  (List.range (k + 1)).map (fun i => (names i, { content := contents i }))

def chainVisited (names : Nat → String) (k : Nat) : List String :=
  ((List.range k).map names).reverse

def chainLog (names : Nat → String) (k : Nat) : List String :=
  (List.range k).map (fun i => names (i + 1))

theorem chainSources_succ (names contents : Nat → String) (k : Nat) :
    chainSources names contents (k + 1) =
      chainSources names contents k ++ [(names (k + 1), { content := contents (k + 1) })] := by
  unfold chainSources
  rw [List.range_succ, List.map_append]
  simp

theorem chainVisited_succ (names : Nat → String) (k : Nat) :
    chainVisited names (k + 1) = names k :: chainVisited names k := by
  unfold chainVisited
  rw [List.range_succ, List.map_append, List.reverse_append]
  simp

theorem chainLog_succ (names : Nat → String) (k : Nat) :
    chainLog names (k + 1) = chainLog names k ++ [names (k + 1)] := by
  unfold chainLog
  rw [List.range_succ, List.map_append]
  simp

theorem chainVisited_mem (names : Nat → String)
    (hinj : ∀ i j, i ≤ 51 → j ≤ 51 → names i = names j → i = j)
    (k j : Nat) (hk : k ≤ 51) (hj : j ≤ 51) :
    names j ∈ chainVisited names k ↔ j < k := by
  unfold chainVisited
  rw [List.mem_reverse, List.mem_map]
  constructor
  · rintro ⟨i, hi, hij⟩
    rw [List.mem_range] at hi
    have := hinj i j (by omega) hj hij
    omega
  · intro hjk
    exact ⟨j, List.mem_range.mpr hjk, rfl⟩

theorem chainSources_lookup (names contents : Nat → String)
    (hinj : ∀ i j, i ≤ 51 → j ≤ 51 → names i = names j → i = j)
    (k j : Nat) (hk : k ≤ 51) (hj : j ≤ 51) :
    lookupSrc (chainSources names contents k) (names j) =
      if j ≤ k then some { content := contents j } else none := by
  induction k with
  | zero =>
    unfold chainSources
    rw [show List.range (0 + 1) = [0] from rfl]
    simp only [List.map_cons, List.map_nil, lookupSrc_singleton]
    by_cases h0 : j = 0
    · subst h0; simp
    · have hne : names 0 ≠ names j := fun he => h0 (hinj 0 j (by omega) hj he).symm
      rw [if_neg hne, if_neg (by omega)]
  | succ k ih =>
    rw [chainSources_succ, lookupSrc_append, ih (by omega)]
    by_cases hjk : j ≤ k
    · rw [if_pos hjk]
      simp only
      rw [if_pos (by omega)]
    · rw [if_neg hjk]
      simp only [lookupSrc_singleton]
      by_cases hje : j = k + 1
      · subst hje; simp
      · have hne : names (k + 1) ≠ names j :=
          fun he => hje (hinj (k + 1) j (by omega) hj he).symm
        rw [if_neg hne, if_neg (by omega)]

theorem map_eq_singletonE {α β : Type} (f : α → β) (l : List α) (b : β)
    (h : l.map f = [b]) : ∃ a, l = [a] ∧ f a = b := by
  match l with
  | [] => simp at h
  | [x] => simp at h; exact ⟨x, rfl, h⟩
  | x :: y :: ys => simp at h

/-- Downward induction along the chain: a `resolveFileImports` call on
`names k` with gas `51 - k` (Go depth `k`) in the state reached after
processing `names 0 .. names (k-1)` runs the chain down to the depth error
on `names 51`, having logged callback calls exactly for
`names 1 .. names 51`. -/
theorem chainStuck (names contents : Nat → String) (cb : ImportCallback)
    (L : String) (S : Settings)
    (hinj : ∀ i j, i ≤ 51 → j ≤ 51 → names i = names j → i = j)
    (hsucc : ∀ i, i ≤ 50 → succPaths (contents i) (names i) = [names (i + 1)])
    (hcb : ∀ i, 1 ≤ i → i ≤ 51 →
      cb (names i) = { contents := contents i, error := "" }) :
    ∀ (m k : Nat), k + m = 51 →
      resolveFileImports cb m
        { resolvedSources := chainVisited names k, callLog := chainLog names k }
        { language := L, sources := chainSources names contents k, settings := S }
        (names k) =
      ({ resolvedSources := chainVisited names 51, callLog := chainLog names 51 },
        { language := L, sources := chainSources names contents 51, settings := S },
        some ("maximum import depth exceeded for file: " ++ names 51)) := by
  intro m
  induction m with
  | zero =>
    intro k hk
    have hk51 : k = 51 := by omega
    subst hk51
    rfl
  | succ m ih =>
    intro k hk
    have hk50 : k ≤ 50 := by omega
    have hnotvis : names k ∉ chainVisited names k := by
      rw [chainVisited_mem names hinj k k (by omega) (by omega)]
      omega
    have hlook : lookupSrc (chainSources names contents k) (names k) =
        some { content := contents k } := by
      rw [chainSources_lookup names contents hinj k k (by omega) (by omega),
        if_pos (le_refl k)]
    obtain ⟨ip, hip, hipres⟩ := map_eq_singletonE _ _ _ (hsucc k hk50)
    have hlook2 : lookupSrc (chainSources names contents k) (names (k + 1)) = none := by
      rw [chainSources_lookup names contents hinj k (k + 1) (by omega) (by omega),
        if_neg (by omega)]
    have hcbk := hcb (k + 1) (by omega) (by omega)
    have hrec := ih (k + 1) (by omega)
    rw [resolveFileImports]
    simp only [hnotvis, hlook, hip, hipres, hlook2, hcbk, resolveImportsLoop,
      ← chainVisited_succ, ← chainLog_succ, ← chainSources_succ, hrec]
    simp

/-- Whole-run version of `chainStuck`: starting from an input holding only
the chain root, resolution fails with the depth error naming `names 51`, and
the callback log is exactly `names 1 .. names 51`. -/
theorem chainRunStuck (names contents : Nat → String) (cb : ImportCallback)
    (L : String) (S : Settings)
    (hinj : ∀ i j, i ≤ 51 → j ≤ 51 → names i = names j → i = j)
    (hsucc : ∀ i, i ≤ 50 → succPaths (contents i) (names i) = [names (i + 1)])
    (hcb : ∀ i, 1 ≤ i → i ≤ 51 →
      cb (names i) = { contents := contents i, error := "" }) :
    resolveImportsRun cb
      { language := L, sources := [(names 0, { content := contents 0 })], settings := S } =
    ({ resolvedSources := chainVisited names 51, callLog := chainLog names 51 },
      { language := L, sources := chainSources names contents 51, settings := S },
      some ("maximum import depth exceeded for file: " ++ names 51)) := by
  have h1 : resolveFileImports cb (maxImportDepth + 1) newImportResolver
      { language := L, sources := [(names 0, { content := contents 0 })], settings := S }
      (names 0) =
      ({ resolvedSources := chainVisited names 51, callLog := chainLog names 51 },
        { language := L, sources := chainSources names contents 51, settings := S },
        some ("maximum import depth exceeded for file: " ++ names 51)) :=
    chainStuck names contents cb L S hinj hsucc hcb 51 0 rfl
  show resolveAllLoop cb [names 0] newImportResolver _ = _
  rw [resolveAllLoop, h1]

/-! ## Claim theorems -/

/-- C1: for every input whose discovered import graph is acyclic and within
the depth bound — witnessed by a finite superset `Rs` of the reachable
paths, closed under import edges, with a rank that strictly decreases along
edges and is at most `maxImportDepth` on the initial keys — and whose
callback supplies contents (no error) for the non-initial paths of `Rs`,
`resolveImports` terminates successfully and the returned input's `sources`
contains every transitively referenced resolved path as a key. -/
theorem claim_c1 (cb : ImportCallback) (input0 : Input) (Rs : List String)
    (rank : String → Nat)
    (hroots : ∀ kv, kv ∈ input0.sources → kv.1 ∈ Rs)
    (hrootrank : ∀ kv, kv ∈ input0.sources → rank kv.1 ≤ maxImportDepth)
    (hclosed : ∀ p, p ∈ Rs → ∀ q, q ∈ succPaths (contentAt cb input0 p) p → q ∈ Rs)
    (hrank : ∀ p, p ∈ Rs → ∀ q, q ∈ succPaths (contentAt cb input0 p) p → rank q < rank p)
    (hcbok : ∀ p, p ∈ Rs → lookupSrc input0.sources p = none → (cb p).error = "") :
    (resolveImportsRun cb input0).2.2 = none ∧
    ∀ q, ReachablePath cb input0 q →
      lookupSrc (resolveImportsRun cb input0).2.1.sources q ≠ none := by
  have hinv0 : SInv cb input0 newImportResolver input0 := by
    refine ⟨fun k h => h, ?_, ?_⟩
    · intro k s h
      rw [contentAt, h]
    · intro v hv
      exact absurd hv (by simp [newImportResolver])
  have hfiles : ∀ f, f ∈ input0.sources.map Prod.fst →
      f ∈ Rs ∧ rank f ≤ maxImportDepth ∧ lookupSrc input0.sources f ≠ none := by
    intro f hf
    obtain ⟨kv, hkv, hfst⟩ := List.mem_map.mp hf
    subst hfst
    exact ⟨hroots kv hkv, hrootrank kv hkv,
      (lookupSrc_ne_none_iff input0.sources kv.1).mpr
        (List.mem_map.mpr ⟨kv, hkv, rfl⟩)⟩
  have htop := sTop cb input0 Rs rank hclosed hrank hcbok
    (input0.sources.map Prod.fst) newImportResolver input0 hinv0 hfiles
  obtain ⟨he, hpost, hvis⟩ := htop
  refine ⟨he, ?_⟩
  have hreach : ∀ q, ReachablePath cb input0 q →
      q ∈ (resolveImportsRun cb input0).1.resolvedSources := by
    intro q hq
    induction hq with
    | root p hp =>
      exact hvis p ((lookupSrc_ne_none_iff input0.sources p).mp hp)
    | step p q hp hq ih =>
      exact (hpost.2.2.2 p ih (by simp [newImportResolver]) q hq).1
  intro q hq
  exact hpost.2.2.1.2.2 q (hreach q hq)

/-- Settings value used by the concrete scenarios (the scenarios do not
constrain settings). -/
def scenSettings : Settings :=
  { optimizer := { enabled := false, runs := 0 }, evmVersion := "", outputSelection := [] }

/-- C1 scenario input: only `A.sol`, whose content imports `B.sol`. -/
def c1Input : Input :=
  { language := "Solidity",
    sources := [("A.sol", { content := "import \"B.sol\"; contract A \x7b\x7d" })],
    settings := scenSettings }

/-- C1 scenario callback: supplies contents for `B.sol`. -/
def c1Cb : ImportCallback := fun p =>
  if p = "B.sol" then { contents := "contract B \x7b\x7d", error := "" }
  else { contents := "", error := "File not found: " ++ p }

def c1Rs : List String := ["A.sol", "B.sol"]

def c1Rank : String → Nat := fun p => if p = "A.sol" then 1 else 0

theorem claim_c1_witness :
    (resolveImportsRun c1Cb c1Input).2.2 = none ∧
    lookupSrc (resolveImportsRun c1Cb c1Input).2.1.sources "A.sol" ≠ none ∧
    lookupSrc (resolveImportsRun c1Cb c1Input).2.1.sources "B.sol" ≠ none := by
  have h := claim_c1 c1Cb c1Input c1Rs c1Rank
    (by decide) (by decide) (by decide) (by decide) (by decide)
  exact ⟨h.1,
    h.2 "A.sol" (ReachablePath.root "A.sol" (by decide)),
    h.2 "B.sol" (ReachablePath.step "A.sol" "B.sol"
      (ReachablePath.root "A.sol" (by decide)) (by decide))⟩

/-- C2 cyclic scenario: `A.sol` imports `B.sol`. -/
def c2Input : Input :=
  { language := "Solidity",
    sources := [("A.sol", { content := "import \"B.sol\";" })],
    settings := scenSettings }

/-- C2 cyclic scenario callback: `B.sol` imports `A.sol` back. -/
def c2Cb : ImportCallback := fun p =>
  if p = "B.sol" then { contents := "import \"A.sol\";", error := "" }
  else { contents := "", error := "File not found: " ++ p }

/-- C2: for every import graph — including cyclic ones — the resolver (a
total function in this model, so it terminates on all inputs) invokes the
caller-supplied callback at most once per distinct resolved logical path:
the call log never contains duplicates. On the concrete cyclic graph
`A.sol ↔ B.sol` the run moreover terminates successfully having called the
callback exactly once, for `B.sol`. -/
theorem claim_c2 :
    (∀ (cb : ImportCallback) (input : Input),
      (resolveImportsRun cb input).1.callLog.Nodup) ∧
    (resolveImportsRun c2Cb c2Input).2.2 = none ∧
    (resolveImportsRun c2Cb c2Input).1.callLog = ["B.sol"] := by
  refine ⟨?_, by decide, by decide⟩
  intro cb input
  exact allLoopNodup cb (input.sources.map Prod.fst) newImportResolver input
    ⟨List.nodup_nil, by simp [newImportResolver]⟩

/-- C3: when the import callback reports a non-empty error for every path
and the resolution run requests at least one path, `CompileWithOptions` on
an open session returns an import-resolution error naming the first (and
only) requested path together with the callback's message, and the engine's
compile function is invoked zero times. -/
theorem claim_c3 (deps : EngineDeps) (s : SessionState) (input : Input)
    (cb : ImportCallback)
    (hopen : s.closed = false)
    (hcb : ∀ q, (cb q).error ≠ "")
    (hreq : (resolveImportsRun cb input).1.callLog ≠ []) :
    ∃ p, (resolveImportsRun cb input).1.callLog = [p] ∧
      CompileWithOptions deps s (some input) (some { importCallback := some cb }) =
        (.error ("import resolution failed: " ++ cbFailMsg p (cb p).error), 0) := by
  have h := allLoopAllErr cb hcb (input.sources.map Prod.fst) newImportResolver input
  obtain ⟨hin, hlog⟩ := h
  match hrun : resolveImportsRun cb input with
  | (st2, input2, e2) =>
    have hrun' : resolveAllLoop cb (input.sources.map Prod.fst) newImportResolver input =
        (st2, input2, e2) := hrun
    rw [hrun'] at hin hlog
    rw [hrun] at hreq
    rcases hlog with hlog | ⟨p, hp, he⟩
    · have hlogE : st2.callLog = newImportResolver.callLog := hlog
      exact absurd (by simpa [newImportResolver] using hlogE) hreq
    · have hpE : st2.callLog = newImportResolver.callLog ++ [p] := hp
      have heE : e2 = some (cbFailMsg p (cb p).error) := he
      refine ⟨p, by simpa [newImportResolver] using hpE, ?_⟩
      rw [CompileWithOptions]
      simp only [hopen]
      rw [show resolveImports cb input = .error (cbFailMsg p (cb p).error) from by
        rw [resolveImports, hrun, heE]]
      rfl

def c3Deps : EngineDeps :=
  { marshalInput := fun _ => "", unmarshalOutput := fun _ => none,
    compileAvailable := true, newValueOk := fun _ => true,
    engineCompile := fun _ => some "" }

def c3Session : SessionState :=
  { hasIsolate := true, hasCtx := true, hasVersionFn := true,
    hasLicenseFn := true, closed := false }

/-- C3 scenario callback: returns an error for every requested path. -/
def c3Cb : ImportCallback := fun _ => { contents := "", error := "not found" }

def c3Input : Input :=
  { language := "Solidity",
    sources := [("A.sol", { content := "import \"B.sol\"; contract A \x7b\x7d" })],
    settings := scenSettings }

theorem claim_c3_witness :
    c3Session.closed = false ∧
    (∀ q, (c3Cb q).error ≠ "") ∧
    (resolveImportsRun c3Cb c3Input).1.callLog = ["B.sol"] ∧
    CompileWithOptions c3Deps c3Session (some c3Input)
        (some { importCallback := some c3Cb }) =
      (.error ("import resolution failed: " ++ cbFailMsg "B.sol" (c3Cb "B.sol").error), 0) := by
  obtain ⟨p, hp, hc⟩ := claim_c3 c3Deps c3Session c3Input c3Cb rfl
    (fun q => by rw [show (c3Cb q).error = "not found" from rfl]; decide) (by decide)
  have hlog : (resolveImportsRun c3Cb c3Input).1.callLog = ["B.sol"] := by decide
  rw [hlog] at hp
  have hpe : p = "B.sol" := by
    injection hp with h1 _
    exact h1.symm
  subst hpe
  exact ⟨rfl, fun q => by rw [show (c3Cb q).error = "not found" from rfl]; decide, hlog, hc⟩

/-- C4 (amended): for every linear import chain deeper than the maximum
depth (each `names i` importing exactly `names (i+1)`, distinct names, the
callback supplying the chain contents), resolution fails with the
maximum-depth-exceeded error naming the offending file `names 51` — the
file recursed into at Go depth 51 — and the callback is invoked exactly for
`names 1` through `names 51` (which includes the offending file itself) and
for no file beyond it. -/
theorem claim_c4 (names contents : Nat → String) (cb : ImportCallback)
    (L : String) (S : Settings)
    (hinj : ∀ i j, i ≤ 51 → j ≤ 51 → names i = names j → i = j)
    (hsucc : ∀ i, i ≤ 50 → succPaths (contents i) (names i) = [names (i + 1)])
    (hcb : ∀ i, 1 ≤ i → i ≤ 51 →
      cb (names i) = { contents := contents i, error := "" }) :
    (resolveImportsRun cb
        { language := L, sources := [(names 0, { content := contents 0 })],
          settings := S }).2.2 =
      some ("maximum import depth exceeded for file: " ++ names 51) ∧
    (resolveImportsRun cb
        { language := L, sources := [(names 0, { content := contents 0 })],
          settings := S }).1.callLog =
      (List.range 51).map (fun i => names (i + 1)) := by
  rw [chainRunStuck names contents cb L S hinj hsucc hcb]
  exact ⟨rfl, rfl⟩

/-- C4 chain scenario file names `f0.sol`, `f1.sol`, ... -/
def c4Name (i : Nat) : String := "f" ++ toString i ++ ".sol"

/-- C4 chain scenario contents: file `i` imports file `i + 1`. -/
def c4Content (i : Nat) : String := "import \"f" ++ toString (i + 1) ++ ".sol\";"

/-- C4 chain scenario callback: supplies the chain contents for
`f0.sol .. f59.sol`. -/
def c4Cb : ImportCallback := fun p =>
  match (List.range 60).find? (fun i => c4Name i = p) with
  | some i => { contents := c4Content i, error := "" }
  | none => { contents := "", error := "File not found: " ++ p }

def c4Input : Input :=
  { language := "Solidity",
    sources := [(c4Name 0, { content := c4Content 0 })],
    settings := scenSettings }

/-- C4 counterexample to the claim as stated: on the concrete 52-deep chain
the run fails naming `f51.sol` as exceeding the maximum depth, yet the
callback *was* invoked for `f51.sol` — the very file beyond the limit that
the error names — so "the callback is never invoked for files beyond the
limit" is false on the code. -/
theorem claim_c4_counterexample :
    (resolveImportsRun c4Cb c4Input).2.2 =
      some ("maximum import depth exceeded for file: " ++ c4Name 51) ∧
    c4Name 51 ∈ (resolveImportsRun c4Cb c4Input).1.callLog := by
  constructor
  · decide
  · decide

theorem claim_c4_witness :
    (resolveImportsRun c4Cb c4Input).2.2 =
      some ("maximum import depth exceeded for file: " ++ c4Name 51) ∧
    (resolveImportsRun c4Cb c4Input).1.callLog =
      (List.range 51).map (fun i => c4Name (i + 1)) := by
  have hinj : ∀ i j, i ≤ 51 → j ≤ 51 → c4Name i = c4Name j → i = j := by
    have hd : ∀ i, i ≤ 51 → ∀ j, j ≤ 51 → c4Name i = c4Name j → i = j := by decide
    intro i j hi hj
    exact hd i hi j hj
  have hsucc : ∀ i, i ≤ 50 → succPaths (c4Content i) (c4Name i) = [c4Name (i + 1)] := by
    decide
  have hcb : ∀ i, 1 ≤ i → i ≤ 51 →
      c4Cb (c4Name i) = { contents := c4Content i, error := "" } := by
    have hd : ∀ i, i ≤ 51 →
        c4Cb (c4Name i) = { contents := c4Content i, error := "" } := by decide
    intro i _ hi
    exact hd i hi
  exact claim_c4 c4Name c4Content c4Cb "Solidity" scenSettings hinj hsucc hcb

/-- C5: during a single resolution run the resolver only adds entries to
`sources`: at every point of the run (arbitrary resolver state), every entry
present before a `resolveFileImports` call — originally supplied or added
earlier in the run — is still present with the same value afterwards, and
such a key is never passed to the callback during the call; consequently a
whole run preserves every initial entry and never re-fetches its key. -/
theorem claim_c5 (cb : ImportCallback) :
    (∀ (gas : Nat) (st : RState) (input : Input) (f : String),
      (∀ k v, lookupSrc input.sources k = some v →
        lookupSrc (resolveFileImports cb gas st input f).2.1.sources k = some v) ∧
      (∀ k, lookupSrc input.sources k ≠ none →
        k ∈ (resolveFileImports cb gas st input f).1.callLog → k ∈ st.callLog)) ∧
    (∀ (input : Input) (k : String) (v : SourceIn),
      lookupSrc input.sources k = some v →
        lookupSrc (resolveImportsRun cb input).2.1.sources k = some v ∧
        k ∉ (resolveImportsRun cb input).1.callLog) := by
  constructor
  · intro gas st input f
    have h := fileRunPost cb gas st input f
    obtain ⟨hmono, _, ext, hext, hnone⟩ := h
    refine ⟨hmono, ?_⟩
    intro k hk hmem
    rw [hext] at hmem
    rcases List.mem_append.mp hmem with h | h
    · exact h
    · exact absurd (hnone k h) hk
  · intro input k v hk
    have h := allLoopRunPost cb (input.sources.map Prod.fst) newImportResolver input
    obtain ⟨hmono, _, ext, hext, hnone⟩ := h
    refine ⟨hmono k v hk, ?_⟩
    intro hmem
    rw [resolveImportsRun] at hmem
    rw [hext] at hmem
    rcases List.mem_append.mp hmem with h | h
    · exact absurd h (by simp [newImportResolver])
    · exact absurd (hnone k h) (by simp [hk])

def c5Input : Input :=
  { language := "Solidity",
    sources := [("A.sol", { content := "import \"B.sol\";" })],
    settings := scenSettings }

def c5Cb : ImportCallback := fun p =>
  if p = "B.sol" then { contents := "contract B \x7b\x7d", error := "" }
  else { contents := "", error := "File not found: " ++ p }

theorem claim_c5_witness :
    lookupSrc c5Input.sources "A.sol" = some { content := "import \"B.sol\";" } ∧
    lookupSrc (resolveImportsRun c5Cb c5Input).2.1.sources "A.sol" =
      some { content := "import \"B.sol\";" } ∧
    "A.sol" ∉ (resolveImportsRun c5Cb c5Input).1.callLog := by
  have h := (claim_c5 c5Cb).2 c5Input "A.sol"
    { content := "import \"B.sol\";" } (by decide)
  exact ⟨by decide, h.1, h.2⟩

/-- C6: on an open session, the first `Close` releases the engine resources
(context and isolate cleared), sets the closed flag and returns nil; every
subsequent `Close` returns nil with no further state change; and after
`Close`, `CompileWithOptions` (on any non-nil input) fails with the
closed-session error without invoking the engine, while `Version` and
`License` return the empty string. -/
theorem compileClosedAux (deps : EngineDeps) (s : SessionState) (input : Input)
    (options : Option CompileOptions) (h : s.closed = true) :
    CompileWithOptions deps s (some input) options =
      (.error "compiler has been closed", 0) := by
  unfold CompileWithOptions
  simp [h]

theorem versionClosedAux (versionCall : Option String) (s : SessionState)
    (h : s.closed = true) : Version versionCall s = "" := by
  unfold Version
  by_cases hv : s.hasVersionFn <;> simp [hv, h]

theorem licenseClosedAux (licenseCall : Option String) (s : SessionState)
    (h : s.closed = true) : License licenseCall s = "" := by
  unfold License
  by_cases hv : s.hasLicenseFn <;> simp [hv, h]

theorem claim_c6 (s : SessionState) (deps : EngineDeps) (input : Input)
    (options : Option CompileOptions) (licenseCall versionCall : Option String)
    (hopen : s.closed = false) :
    Close s = ({ cleanup s with closed := true }, none) ∧
    (Close s).1.hasCtx = false ∧
    (Close s).1.hasIsolate = false ∧
    (Close s).1.closed = true ∧
    Close (Close s).1 = ((Close s).1, none) ∧
    CompileWithOptions deps (Close s).1 (some input) options =
      (.error "compiler has been closed", 0) ∧
    Version versionCall (Close s).1 = "" ∧
    License licenseCall (Close s).1 = "" := by
  have h1 : Close s = ({ cleanup s with closed := true }, none) := by
    rw [Close, if_neg (by simp [hopen])]
  refine ⟨h1, by simp [h1, cleanup], by simp [h1, cleanup], by simp [h1, cleanup],
    ?_, ?_, ?_, ?_⟩
  · rw [h1]
    show Close { cleanup s with closed := true } = _
    rw [Close, if_pos (by simp)]
  · rw [h1]
    exact compileClosedAux deps { cleanup s with closed := true } input options rfl
  · rw [h1]
    exact versionClosedAux versionCall { cleanup s with closed := true } rfl
  · rw [h1]
    exact licenseClosedAux licenseCall { cleanup s with closed := true } rfl

def c6Deps : EngineDeps :=
  { marshalInput := fun _ => "", unmarshalOutput := fun _ => none,
    compileAvailable := true, newValueOk := fun _ => true,
    engineCompile := fun _ => some "" }

def c6Session : SessionState :=
  { hasIsolate := true, hasCtx := true, hasVersionFn := true,
    hasLicenseFn := true, closed := false }

def c6Input : Input :=
  { language := "Solidity",
    sources := [("A.sol", { content := "contract A \x7b\x7d" })],
    settings := scenSettings }

theorem claim_c6_witness :
    c6Session.closed = false ∧
    Close c6Session = ({ cleanup c6Session with closed := true }, none) ∧
    Close (Close c6Session).1 = ((Close c6Session).1, none) ∧
    CompileWithOptions c6Deps (Close c6Session).1 (some c6Input) none =
      (.error "compiler has been closed", 0) ∧
    Version (some "0.8.30+commit.73712a01.Emscripten.clang") (Close c6Session).1 = "" ∧
    License (some "GPL-3.0") (Close c6Session).1 = "" := by
  have h := claim_c6 c6Session c6Deps c6Input none
    (some "GPL-3.0") (some "0.8.30+commit.73712a01.Emscripten.clang") rfl
  exact ⟨rfl, h.1, h.2.2.2.2.1, h.2.2.2.2.2.1, h.2.2.2.2.2.2.1, h.2.2.2.2.2.2.2⟩

/-- C7: for every version present in the pre-bundled table, `NewWithVersion`
hands the embedded bytes to `New` and performs no network or cache I/O at
all: the acquisition event log is empty, so in particular neither the
remote catalog fetch nor the artifact download runs, whatever the network
and cache would answer. -/
theorem claim_c7 (deps : DownloadDeps) (version b : String)
    (h : getEmbeddedBinary version = some b) :
    NewWithVersionRun deps version = (.ok b, []) := by
  rw [NewWithVersionRun, h]

def c7Deps : DownloadDeps :=
  { catalogResult := .error "network unavailable",
    downloadResult := fun _ => .error "network unavailable",
    cacheContent := fun _ => none,
    cacheWriteOk := fun _ => false }

theorem claim_c7_witness :
    getEmbeddedBinary "0.8.30" = some solc0830Binary ∧
    NewWithVersionRun c7Deps "0.8.30" = (.ok solc0830Binary, []) := by
  exact ⟨by decide, claim_c7 c7Deps "0.8.30" solc0830Binary (by decide)⟩

/-- C8 (amended): for a version that is not pre-bundled but whose cache file
exists and is non-empty, `NewWithVersion` does return the cached contents
and never downloads the artifact — but only after one remote catalog fetch,
which must succeed and contain the version: the catalog is consulted
*before* the cache, and the event log is exactly
`[catalogFetch, cacheRead version]`. -/
theorem claim_c8 (deps : DownloadDeps) (version filename c : String)
    (vl : VersionList)
    (hemb : getEmbeddedBinary version = none)
    (hcat : deps.catalogResult = .ok vl)
    (hrel : lookupStr vl.releases version = some filename)
    (hcache : deps.cacheContent version = some c)
    (_hne : c ≠ "") :
    NewWithVersionRun deps version =
      (.ok c, [FetchEvent.catalogFetch, FetchEvent.cacheRead version]) := by
  rw [NewWithVersionRun, hemb]
  rw [resolveVersionRun, fetchVersionListRun, hcat]
  simp only [hrel]
  rw [downloadSolcBinaryRun, hcache]
  simp

def c8Deps : DownloadDeps :=
  { catalogResult := .ok
      { builds := [],
        releases := [("0.7.6", "soljson-v0.7.6+commit.7338295f.js")] },
    downloadResult := fun _ => .error "network unavailable",
    cacheContent := fun v => if v = "0.7.6" then some "cached soljson 0.7.6 blob" else none,
    cacheWriteOk := fun _ => true }

/-- C8 counterexample to the claim as stated: for the non-bundled version
`0.7.6` with a non-empty cache entry, the run does return the cached
contents, but its event log contains `catalogFetch` — a network request —
and the catalog fetch precedes the cache read, refuting "performs no
network request (the remote catalog is not fetched before the cache is
consulted)". -/
theorem claim_c8_counterexample :
    NewWithVersionRun c8Deps "0.7.6" =
      (.ok "cached soljson 0.7.6 blob",
        [FetchEvent.catalogFetch, FetchEvent.cacheRead "0.7.6"]) ∧
    FetchEvent.catalogFetch ∈ (NewWithVersionRun c8Deps "0.7.6").2 := by
  constructor
  · rfl
  · decide

theorem claim_c8_witness :
    getEmbeddedBinary "0.7.6" = none ∧
    c8Deps.cacheContent "0.7.6" = some "cached soljson 0.7.6 blob" ∧
    NewWithVersionRun c8Deps "0.7.6" =
      (.ok "cached soljson 0.7.6 blob",
        [FetchEvent.catalogFetch, FetchEvent.cacheRead "0.7.6"]) := by
  refine ⟨by decide, by decide, ?_⟩
  exact claim_c8 c8Deps "0.7.6" "soljson-v0.7.6+commit.7338295f.js"
    "cached soljson 0.7.6 blob"
    { builds := [], releases := [("0.7.6", "soljson-v0.7.6+commit.7338295f.js")] }
    (by decide) rfl (by decide) (by decide) (by decide)

/-- C10: `New` (via `newBaseSolc`, and hence `NewWithVersion` when handed an
empty artifact) rejects an empty artifact string with an error before any
engine isolate or context is created: the construction event log is empty
and no session is returned. -/
theorem claim_c10 (initError : Option String) (licenseBound : Bool) :
    NewRun initError licenseBound "" = (.error "soljsonjs cannot be empty", []) := by
  rw [NewRun, newBaseSolcRun, if_pos rfl]

end SolcGo
